import Mathlib

/-!
Shallow embedding of the two scripts of the OctaIndex3D repository:
`scripts/generate_book_index.py` (an index generator that walks a directory
of markdown files, matches a fixed vocabulary with case-insensitive
word-boundary regexes and renders an alphabetized index page) and
`scripts/generate_book_figures.py` (a figure generator writing three PNG
charts under a fixed directory, with one coarse try/except guard).

Python strings are modelled as lists of code points (`Text := List Nat`);
all inputs appearing in the claims are ASCII, so the ASCII case folding and
`\w` word-character class used below coincide with Python's behaviour on
these inputs.  The file system is modelled as a tree of named directories
and files; `os.walk` becomes the structural recursion `walkDir`/`walkSubs`.
-/

set_option maxRecDepth 400000

namespace OctaIndex

/-- Texts are Python strings viewed as lists of code points. -/
abbrev Text := List Nat

/-- Code points of a Lean string literal, used to transcribe the Python
string literals of the source. -/
def str (s : String) : Text := s.data.map Char.toNat

/-- ASCII lower-casing of one code point (Python `str.lower` on ASCII). -/
def pyLowerC (c : Nat) : Nat := if 65 ≤ c ∧ c ≤ 90 then c + 32 else c

/-- ASCII upper-casing of one code point (Python `str.upper` on ASCII). -/
def pyUpperC (c : Nat) : Nat := if 97 ≤ c ∧ c ≤ 122 then c - 32 else c

/-- Lower-casing of a text, the sort key `lambda s: s.lower()` of
`generate_index_md`. -/
def lowerL (s : Text) : Text := s.map pyLowerC

/-- Membership in the regex word class `\w` for ASCII code points. -/
def isWordC (c : Nat) : Bool :=
  (48 ≤ c && c ≤ 57) || (65 ≤ c && c ≤ 90) || (97 ≤ c && c ≤ 122) || c == 95

/-- Whether position `i` of `content` holds a word character (positions
outside the text count as non-word). -/
def wAt (content : Text) (i : Nat) : Bool :=
  match content.get? i with
  | some c => isWordC c
  | none => false

/-- The regex `\b` word-boundary test at position `p` of `content`: the
wordness of the character before `p` differs from the wordness at `p`. -/
def boundaryAt (content : Text) (p : Nat) : Bool :=
  (if p = 0 then false else wAt content (p - 1)) != wAt content p

/-- Case-insensitive equality of two texts (`re.IGNORECASE` on ASCII). -/
def ciEq (a b : Text) : Bool :=
  a.length == b.length && (a.zip b).all (fun p => pyLowerC p.1 == pyLowerC p.2)

/-- Whether the regex `\b<escaped term>\b` with `re.IGNORECASE` matches
`content` at start position `i`: the term occurs there case-insensitively
and both ends sit on word boundaries.  The term is `re.escape`d in the
source, so it is matched literally. -/
def matchAt (term content : Text) (i : Nat) : Bool :=
  ciEq term ((content.drop i).take term.length) && boundaryAt content i &&
    boundaryAt content (i + term.length)

/-- The `re.search(r'\b' + re.escape(term) + r'\b', content, re.IGNORECASE)`
test of `scan_files`: some start position yields a match. -/
def termSearch (term content : Text) : Bool :=
  (List.range (content.length + 1)).any (matchAt term content)

/-- The `BOOK_DIR` constant of the source. -/
def BOOK_DIR : Text := str "book"

/-- The `INDEX_FILE` constant of the source
(`os.path.join(BOOK_DIR, "back_matter", "index.md")`). -/
def INDEX_FILE : Text := str "book/back_matter/index.md"

/-- The `IGNORE_DIRS` constant of the source. -/
def IGNORE_DIRS : List Text := [str "images", str "back_matter"]

/-- The `IGNORE_FILES` constant of the source. -/
def IGNORE_FILES : List Text :=
  [str "index.md", str "SUMMARY.md", str "BOOK_ENHANCEMENT_SUGGESTIONS.md",
   str "ERRATA.md", str "LICENSE.md"]

/-- The `EXPLICIT_TERMS` constant of the source, in source order. -/
def EXPLICIT_TERMS : List Text :=
  [str "BCC", str "Body-Centered Cubic", str "Octree", str "Morton",
   str "Hilbert", str "SFC",
   str "Isotropy", str "Anisotropy", str "Voronoi", str "Truncated Octahedron",
   str "Parity", str "Coordinate", str "Lattice", str "Sampling", str "Nyquist",
   str "Galactic128", str "Index64", str "Route64", str "Hilbert64",
   str "Frame Registry",
   str "Container", str "Streaming", str "Compression", str "Delta Encoding",
   str "SIMD", str "AVX2", str "NEON", str "BMI2", str "GPU", str "CUDA",
   str "Metal", str "Vulkan",
   str "Pathfinding", str "A*", str "Dijkstra", str "Occupancy Grid",
   str "SLAM",
   str "Geospatial", str "WGS84", str "ECEF", str "ENU", str "GIS",
   str "Molecular Dynamics", str "Crystallography", str "CFD",
   str "Voxel", str "LOD", str "Level of Detail", str "Procedural Generation",
   str "Distributed", str "Sharding", str "Arrow", str "Parquet",
   str "Machine Learning", str "GNN", str "Point Cloud", str "PyTorch"]

mutual

/-- A directory of the content tree: its markdown/other files as
(name, content) pairs, and its named subdirectories. -/
inductive Dir where
  | node : List (Text × Text) → SubDirs → Dir

/-- The named subdirectories of a directory, in listing order. -/
inductive SubDirs where
  | nil : SubDirs
  | cons : Text → Dir → SubDirs → SubDirs

end

/-- One file met during the walk: the directory components of its location
relative to the content root, its base name, and its content. -/
structure Item where
  dirs : List Text
  name : Text
  content : Text
deriving DecidableEq

mutual

/-- The `os.walk(BOOK_DIR)` loop of `scan_files`: at each directory the
files are listed, then the subdirectories whose name is not in
`IGNORE_DIRS` are descended (the source prunes them via
`dirs[:] = [d for d in dirs if d not in IGNORE_DIRS]`). -/
def walkDir (path : List Text) : Dir → List Item
  | .node files subs =>
    files.map (fun f => ⟨path, f.1, f.2⟩) ++ walkSubs path subs

/-- Walk of the surviving subdirectories, in order. -/
def walkSubs (path : List Text) : SubDirs → List Item
  | .nil => []
  | .cons n d rest =>
    (if n ∈ IGNORE_DIRS then [] else walkDir (path ++ [n]) d) ++ walkSubs path rest

end

/-- Python `s.strip(chars)`: remove the code points of `chars` from both
ends of `s`. -/
def stripSetL (chars s : Text) : Text :=
  ((s.dropWhile (fun c => c ∈ chars)).reverse.dropWhile (fun c => c ∈ chars)).reverse

/-- Python whitespace test for `str.strip()` on ASCII. -/
def isPySpaceC (c : Nat) : Bool :=
  c == 32 || c == 9 || c == 10 || c == 13 || c == 11 || c == 12

/-- Python `s.strip()`: remove whitespace from both ends. -/
def pyStripWs (s : Text) : Text :=
  ((s.dropWhile isPySpaceC).reverse.dropWhile isPySpaceC).reverse

/-- Iterating a Python file handle yields the lines of the content, each
keeping its trailing newline; a final line without newline is kept too. -/
def splitLinesAux (acc : Text) : Text → List Text
  | [] => if acc.isEmpty then [] else [acc.reverse]
  | c :: rest =>
    if c = 10 then (acc.reverse ++ [10]) :: splitLinesAux [] rest
    else splitLinesAux (c :: acc) rest

/-- The lines of a file content, with newlines kept (Python iteration). -/
def splitLines (s : Text) : List Text := splitLinesAux [] s

/-- The `line.startswith("# ")` test of `get_title`. -/
def lineIsH1 (l : Text) : Bool := (str "# ").isPrefixOf l

/-- The `line.strip("# ").strip()` transformation of `get_title`. -/
def titleOfLine (l : Text) : Text := pyStripWs (stripSetL (str "# ") l)

/-- The line loop of `get_title`: return the stripped first level-one
heading line, else fall through to the default. -/
def getTitleLines (dft : Text) : List Text → Text
  | [] => dft
  | l :: ls => if lineIsH1 l then titleOfLine l else getTitleLines dft ls

/-- The `get_title` function of the source: first `# `-line stripped, with
`os.path.basename(path)` — the file name — as fallback. -/
def getTitle (content name : Text) : Text := getTitleLines name (splitLines content)

/-- A recorded occurrence: `(title, link_path)` as appended in
`scan_files`. -/
abbrev Hit := Text × Text

/-- The in-memory index: a `defaultdict(list)` as an association list in
key-insertion order, each key holding its hits in append order. -/
abbrev Index := List (Text × List Hit)

/-- The relative link path `os.path.relpath(os.path.join(root, file),
BOOK_DIR)`: the directory components below the content root joined with
the file name by `/`. -/
def joinPath (dirs : List Text) (name : Text) : Text :=
  List.intercalate (str "/") (dirs ++ [name])

/-- `index[term].append(hit)` on a `defaultdict(list)`: a fresh key is
appended at the end, an existing key gets the hit appended to its list. -/
def addHit (term : Text) (hit : Hit) : Index → Index
  | [] => [(term, [hit])]
  | (t, hs) :: rest =>
    if t = term then (t, hs ++ [hit]) :: rest else (t, hs) :: addHit term hit rest

/-- The `.md`/exclusion filter of `scan_files`:
`if not file.endswith(".md") or file in IGNORE_FILES: continue`. -/
def fileKept (name : Text) : Bool :=
  (str ".md").isSuffixOf name && !(decide (name ∈ IGNORE_FILES))

/-- The inner term loop of `scan_files` over a vocabulary `L`: record a hit
for each term the content matches. -/
def scanTerms (title rel content : Text) (idx : Index) (L : List Text) : Index :=
  L.foldl (fun idx t => if termSearch t content then addHit t (title, rel) idx else idx) idx

/-- Processing of one walked file in `scan_files`: skip excluded and
non-markdown names, otherwise scan the vocabulary against the content. -/
def scanFile (idx : Index) (it : Item) : Index :=
  if fileKept it.name then
    scanTerms (getTitle it.content it.name) (joinPath it.dirs it.name) it.content idx EXPLICIT_TERMS
  else idx

/-- The `scan_files` function of the source over a modelled content root. -/
def scanFiles (root : Dir) : Index := (walkDir [] root).foldl scanFile []

/-- Lookup of `index[term]` (the empty list for an absent key). -/
def lookupHits (t : Text) : Index → List Hit
  | [] => []
  | (u, hs) :: rest => if u = t then hs else lookupHits t rest

/-- The keys of the index, in insertion order (`index.keys()`). -/
def keysOf (idx : Index) : List Text := idx.map (fun p => p.1)

/-- Python `dict` assignment `d[k] = v` on an association list in key
insertion order: an existing key keeps its position and gets the new
value, a fresh key is appended. -/
def updateAssoc (k v : Text) : List Hit → List Hit
  | [] => [(k, v)]
  | (u, w) :: rest =>
    if u = k then (u, v) :: rest else (u, w) :: updateAssoc k v rest

/-- The `unique_links` deduplication loop of `generate_index_md`:
`for title, path in links: unique_links[title] = path`. -/
def dedupLinks (links : List Hit) : List Hit :=
  links.foldl (fun acc h => updateAssoc h.1 h.2 acc) []

/-- One rendered markdown link `[title](../path)`. -/
def linkMd (h : Hit) : Text := str "[" ++ h.1 ++ str "](../" ++ h.2 ++ str ")"

/-- The `", ".join(...)` of the deduplicated links of one term. -/
def linksMd (links : List Hit) : Text :=
  List.intercalate (str ", ") (links.map linkMd)

/-- One term line `- **term**: links` of the generated document. -/
def termLine (idx : Index) (t : Text) : Text :=
  str "- **" ++ t ++ str "**: " ++ linksMd (dedupLinks (lookupHits t idx)) ++ str "\n"

/-- The section letter `term[0].upper()` of a term.  The source would raise
`IndexError` on an empty term; every vocabulary term is non-empty, and the
model totalizes with default code point 0. -/
def letterOf (t : Text) : Text := [pyUpperC (t.headD 0)]

/-- The section header text emitted when the letter changes. -/
def hdrText (letter : Text) : Text := str "\n## " ++ letter ++ str "\n\n"

/-- The term loop of `generate_index_md`: emit a header whenever the
letter of the term differs from `current_letter`, then the term line. -/
def renderBody (idx : Index) : List Text → Text → Text
  | [], _ => []
  | t :: ts, cur =>
    (if letterOf t ≠ cur then hdrText (letterOf t) else []) ++ termLine idx t ++
      renderBody idx ts (letterOf t)

/-- Strict lexicographic comparison of texts by code point, Python `<` on
strings. -/
def lexLt : Text → Text → Bool
  | [], [] => false
  | [], _ :: _ => true
  | _ :: _, [] => false
  | a :: xs, b :: ys => a < b || (a == b && lexLt xs ys)

/-- Stable insertion of a term into a list sorted by lower-cased key:
the new element goes before the first strictly greater key. -/
def insertSorted (x : Text) : List Text → List Text
  | [] => [x]
  | y :: ys => if lexLt (lowerL y) (lowerL x) then y :: insertSorted x ys else x :: y :: ys

/-- `sorted(keys, key=lambda s: s.lower())`: a stable sort by lower-cased
key (Python's sort is stable; any stable sort agrees with it). -/
def sortTerms (l : List Text) : List Text := l.foldr insertSorted []

/-- The `generate_index_md` function of the source. -/
def generateIndexMd (idx : Index) : Text :=
  str "# Index\n\n" ++ renderBody idx (sortTerms (keysOf idx)) []

/-- The content written to `INDEX_FILE` by one run of the index generator
on a modelled content root (`main` of `generate_book_index.py`). -/
def runIndexGenerator (root : Dir) : Text := generateIndexMd (scanFiles root)

/-- Substring test on texts, used to state properties of the generated
document. -/
def containsSub (pat s : Text) : Bool :=
  (List.range (s.length + 1)).any (fun i => decide ((s.drop i).take pat.length = pat))

/-- Number of positions of `s` at which `pat` occurs. -/
def countSub (pat s : Text) : Nat :=
  ((List.range (s.length + 1)).filter (fun i => decide ((s.drop i).take pat.length = pat))).length

/-- Per-term view of the `generate_index_md` loop: for each term, the
optional section header emitted just before its line (`none` when the
letter did not change), paired with the term. -/
def renderSeg : List Text → Text → List (Option Text × Text)
  | [], _ => []
  | t :: ts, cur =>
    ((if letterOf t ≠ cur then some (hdrText (letterOf t)) else none), t) :: renderSeg ts (letterOf t)

/-- Flattening of the per-term view back into the document body. -/
def flattenSegs (idx : Index) (segs : List (Option Text × Text)) : Text :=
  segs.foldr (fun s acc => (s.1.getD []) ++ termLine idx s.2 ++ acc) []

/-- The sequence of section letters emitted by the loop, given the current
letter state. -/
def emittedLetters : List Text → Text → List Text
  | [], _ => []
  | t :: ts, cur =>
    (if letterOf t ≠ cur then [letterOf t] else []) ++ emittedLetters ts (letterOf t)

/-- The `(title, link_path)` pair recorded by `scan_files` for one walked
file. -/
def mkHit (it : Item) : Hit := (getTitle it.content it.name, joinPath it.dirs it.name)

/-- First value stored under a key in an association list. -/
def lookupPath (t : Text) : List Hit → Option Text
  | [] => none
  | (u, v) :: rest => if u = t then some v else lookupPath t rest

/-- First defined alternative of two optional values. -/
def altO (a b : Option Text) : Option Text :=
  match a with
  | some v => some v
  | none => b

/-- Value of the last pair carrying a given title in a hit list. -/
def lastPathFor (t : Text) (links : List Hit) : Option Text :=
  lookupPath t links.reverse

/-- The `OUTPUT_DIR` constant of `generate_book_figures.py`. -/
def OUTPUT_DIR : Text := str "book/images"

/-- `os.path.join(OUTPUT_DIR, name)` for the three `savefig` targets. -/
def outJoin (name : String) : Text := OUTPUT_DIR ++ str "/" ++ str name

/-- Oracle for one run of the figure generator: whether the output
directory exists beforehand, and for each of the three plotting calls
(`plot_neighbor_lookup`, `plot_memory_usage`, `plot_isotropy`) either
`none` (the call completes and saves its figure) or `some msg` (the call
raises an exception with message `msg` before saving). -/
structure FigWorld where
  dirExists : Bool
  r1 : Option Text
  r2 : Option Text
  r3 : Option Text

/-- Observable outcome of one run of the figure generator: console lines
in order, figure files written in order, whether the output directory
exists afterwards and whether `ensure_output_dir` created it, the
exception escaping `main` if any, and the process exit status. -/
structure FigOutcome where
  printed : List Text
  files : List Text
  outDirExists : Bool
  dirCreated : Bool
  uncaught : Option Text
  exitCode : Nat

/-- The first console line of `main`. -/
def genLine : Text := str "Generating figures in book/images..."

/-- The `except` branch line `print(f"Error generating plots: ...")`. -/
def errLine (e : Text) : Text := str "Error generating plots: " ++ e

/-- The installation-hint line of the `except` branch. -/
def hintLine : Text := str "Ensure matplotlib is installed: pip install matplotlib"

/-- The `main` of `generate_book_figures.py`: `ensure_output_dir` creates
the directory when missing, then the three plotting calls run in order
inside a single `try`; the first raising call aborts the rest, its message
is printed with the hint, and nothing escapes (so the interpreter exits
with status 0). -/
def figMain (w : FigWorld) : FigOutcome :=
  let created := !w.dirExists
  match w.r1 with
  | some e =>
    ⟨[genLine, errLine e, hintLine], [], true, created, none, 0⟩
  | none =>
    match w.r2 with
    | some e =>
      ⟨[genLine, str "Generated benchmark_neighbor_lookup.png", errLine e, hintLine],
       [outJoin "benchmark_neighbor_lookup.png"], true, created, none, 0⟩
    | none =>
      match w.r3 with
      | some e =>
        ⟨[genLine, str "Generated benchmark_neighbor_lookup.png",
          str "Generated benchmark_memory_efficiency.png", errLine e, hintLine],
         [outJoin "benchmark_neighbor_lookup.png", outJoin "benchmark_memory_efficiency.png"],
         true, created, none, 0⟩
      | none =>
        ⟨[genLine, str "Generated benchmark_neighbor_lookup.png",
          str "Generated benchmark_memory_efficiency.png",
          str "Generated benchmark_isotropy.png"],
         [outJoin "benchmark_neighbor_lookup.png", outJoin "benchmark_memory_efficiency.png",
          outJoin "benchmark_isotropy.png"],
         true, created, none, 0⟩

/-- Content root for the end-to-end example of the spec: one markdown file
with heading `# Chapter One` and a body mentioning an Octree and the BCC
lattice. -/
def c1Root : Dir :=
  .node [(str "chapter1.md", str "# Chapter One\nuses an Octree and BCC lattice\n")] .nil

/-- Content root whose single file contains `BCCX` but no standalone
occurrence of `BCC`. -/
def bccxRoot : Dir := .node [(str "x.md", str "# X\nthe BCCX format\n")] .nil

/-- Content root whose single file contains a lowercase whole-word
`bcc`. -/
def bccLowerRoot : Dir := .node [(str "l.md", str "# L\nuses bcc here\n")] .nil

/-- Content root with two sibling files of identical derived title, both
containing the term `BCC`. -/
def dupTitleRoot : Dir :=
  .node [(str "a.md", str "# Chapter One\nBCC\n"), (str "b.md", str "# Chapter One\nBCC\n")] .nil

/-- Content root with excluded material only: an excluded file name, a
non-markdown file, and files inside the two pruned directories. -/
def excludedRoot : Dir :=
  .node [(str "index.md", str "# T\nBCC\n"), (str "notes.txt", str "BCC")]
    (.cons (str "images") (.node [(str "pic.md", str "BCC")] .nil)
      (.cons (str "back_matter") (.node [(str "y.md", str "BCC")] .nil) .nil))

/-- Content root whose single file mentions `A*` followed by a space. -/
def aStarRoot : Dir := .node [(str "ch.md", str "# Ch\nA* search methods\n")] .nil

/-- Content root with the same title under two different paths, both
recording the term `BCC`: subdirectory `a` is walked before `b`. -/
def lastWinsRoot : Dir :=
  .node []
    (.cons (str "a") (.node [(str "f.md", str "# Chapter One\nBCC\n")] .nil)
      (.cons (str "b") (.node [(str "f.md", str "# Chapter One\nBCC\n")] .nil) .nil))

/-- A world where the very first plotting call raises. -/
def failWorld : FigWorld := ⟨true, some (str "boom"), none, none⟩

/-- A world with no pre-existing output directory and three successful
plotting calls. -/
def okWorld : FigWorld := ⟨false, none, none, none⟩

/-! ### Lemmas about the in-memory index -/

theorem explicitTerms_nodup : EXPLICIT_TERMS.Nodup := by decide

theorem lookupHits_addHit_self (t : Text) (hit : Hit) (idx : Index) :
    lookupHits t (addHit t hit idx) = lookupHits t idx ++ [hit] := by
  induction idx with
  | nil => simp [addHit, lookupHits]
  | cons p rest ih =>
    obtain ⟨u, hs⟩ := p
    by_cases h : u = t
    · subst h; simp [addHit, lookupHits]
    · simp [addHit, lookupHits, h, ih]

theorem lookupHits_addHit_ne (t u : Text) (h : u ≠ t) (hit : Hit) (idx : Index) :
    lookupHits t (addHit u hit idx) = lookupHits t idx := by
  induction idx with
  | nil => simp [addHit, lookupHits, h]
  | cons p rest ih =>
    obtain ⟨v, hs⟩ := p
    by_cases hv : v = u
    · subst hv; simp [addHit, lookupHits, h]
    · by_cases hvt : v = t <;> simp [addHit, lookupHits, hv, hvt, Ne.symm h, ih]

theorem lookupHits_scanTerms_not_mem (title rel content : Text) (idx : Index)
    (L : List Text) (t : Text) (ht : t ∉ L) :
    lookupHits t (scanTerms title rel content idx L) = lookupHits t idx := by
  induction L generalizing idx with
  | nil => rfl
  | cons u L ih =>
    have hut : u ≠ t := fun h => ht (h ▸ List.mem_cons_self u L)
    have htL : t ∉ L := fun h => ht (List.mem_cons_of_mem u h)
    by_cases hs : termSearch u content
    · simp only [scanTerms, List.foldl_cons, if_pos hs] at *
      rw [ih _ htL, lookupHits_addHit_ne t u hut]
    · simp only [scanTerms, List.foldl_cons, if_neg hs] at *
      exact ih _ htL

theorem lookupHits_scanTerms_mem (title rel content : Text) (idx : Index)
    (L : List Text) (t : Text) (ht : t ∈ L) (hnd : L.Nodup) :
    lookupHits t (scanTerms title rel content idx L) =
      lookupHits t idx ++ (if termSearch t content then [(title, rel)] else []) := by
  induction L generalizing idx with
  | nil => cases ht
  | cons u L ih =>
    rw [List.nodup_cons] at hnd
    rcases List.mem_cons.mp ht with h | h
    · subst h
      have : lookupHits t (scanTerms title rel content idx (t :: L)) =
          lookupHits t (if termSearch t content then addHit t (title, rel) idx else idx) := by
        simp only [scanTerms, List.foldl_cons]
        exact lookupHits_scanTerms_not_mem title rel content _ L t hnd.1
      rw [this]
      by_cases hs : termSearch t content
      · rw [if_pos hs, if_pos hs, lookupHits_addHit_self]
      · rw [if_neg hs, if_neg hs, List.append_nil]
    · have hut : u ≠ t := fun he => hnd.1 (he ▸ h)
      by_cases hs : termSearch u content
      · simp only [scanTerms, List.foldl_cons, if_pos hs] at *
        rw [ih _ h hnd.2, lookupHits_addHit_ne t u hut]
      · simp only [scanTerms, List.foldl_cons, if_neg hs] at *
        exact ih _ h hnd.2

theorem lookupHits_foldl_scanFile (items : List Item) (idx : Index) (t : Text)
    (ht : t ∈ EXPLICIT_TERMS) :
    lookupHits t (items.foldl scanFile idx) =
      lookupHits t idx ++
        (items.filter (fun it => fileKept it.name && termSearch t it.content)).map mkHit := by
  induction items generalizing idx with
  | nil => simp
  | cons it items ih =>
    rw [List.foldl_cons, ih]
    by_cases hk : fileKept it.name
    · rw [scanFile, if_pos hk,
        lookupHits_scanTerms_mem _ _ _ _ _ t ht explicitTerms_nodup]
      by_cases hs : termSearch t it.content
      · simp [List.filter_cons, hk, hs, mkHit]
      · simp [List.filter_cons, hk, hs]
    · rw [scanFile, if_neg hk]
      simp [List.filter_cons, hk]

/-- Characterization of `scan_files`: the hits recorded for a vocabulary
term are exactly the kept, matching files of the walk, in walk order. -/
theorem lookupHits_scanFiles (root : Dir) (t : Text) (ht : t ∈ EXPLICIT_TERMS) :
    lookupHits t (scanFiles root) =
      ((walkDir [] root).filter (fun it => fileKept it.name && termSearch t it.content)).map mkHit := by
  rw [scanFiles, lookupHits_foldl_scanFile _ _ _ ht]
  rfl

theorem nodup_snoc {l : List Text} {a : Text} (h : l.Nodup) (hm : a ∉ l) :
    (l ++ [a]).Nodup := by
  rw [List.nodup_append]
  refine ⟨h, List.nodup_singleton a, ?_⟩
  intro x hx hx1
  rw [List.mem_singleton] at hx1
  exact hm (hx1 ▸ hx)

theorem lookupHits_eq_nil_of_not_mem (t : Text) (idx : Index) (h : t ∉ keysOf idx) :
    lookupHits t idx = [] := by
  induction idx with
  | nil => rfl
  | cons p rest ih =>
    obtain ⟨u, hs⟩ := p
    have hut : u ≠ t := fun he => h (he ▸ List.mem_cons_self _ _)
    have hrest : t ∉ keysOf rest := fun he => h (List.mem_cons_of_mem _ he)
    simp [lookupHits, hut, ih hrest]

theorem keysOf_addHit (t : Text) (hit : Hit) (idx : Index) :
    keysOf (addHit t hit idx) = if t ∈ keysOf idx then keysOf idx else keysOf idx ++ [t] := by
  induction idx with
  | nil => simp [addHit, keysOf]
  | cons p rest ih =>
    obtain ⟨u, hs⟩ := p
    by_cases h : u = t
    · subst h; simp [addHit, keysOf]
    · simp only [addHit, if_neg h, keysOf, List.map_cons] at *
      rw [ih]
      by_cases hm : t ∈ List.map (fun p => p.1) rest <;> simp [hm, Ne.symm h]

theorem keysOf_addHit_nodup (t : Text) (hit : Hit) (idx : Index)
    (h : (keysOf idx).Nodup) : (keysOf (addHit t hit idx)).Nodup := by
  rw [keysOf_addHit]
  by_cases hm : t ∈ keysOf idx
  · simpa [hm] using h
  · simp only [hm, if_false]
    simpa [List.nodup_append] using ⟨h, hm⟩

theorem mem_keysOf_addHit {u t : Text} {hit : Hit} {idx : Index}
    (h : u ∈ keysOf (addHit t hit idx)) : u ∈ keysOf idx ∨ u = t := by
  rw [keysOf_addHit] at h
  by_cases hm : t ∈ keysOf idx
  · simp only [hm, if_true] at h; exact Or.inl h
  · simp only [hm, if_false, List.mem_append, List.mem_singleton] at h; exact h

theorem keysOf_scanTerms (title rel content : Text) (idx : Index) (L : List Text) :
    (keysOf (scanTerms title rel content idx L)).Nodup ∧
      (∀ u ∈ keysOf (scanTerms title rel content idx L), u ∈ keysOf idx ∨ u ∈ L) ∨
      ¬ (keysOf idx).Nodup := by
  by_cases hnd : (keysOf idx).Nodup
  · left
    induction L generalizing idx with
    | nil => exact ⟨hnd, fun u hu => Or.inl hu⟩
    | cons v L ih =>
      by_cases hs : termSearch v content
      · simp only [scanTerms, List.foldl_cons, if_pos hs] at *
        have h1 := keysOf_addHit_nodup v (title, rel) idx hnd
        obtain ⟨ha, hb⟩ := ih (addHit v (title, rel) idx) h1
        refine ⟨ha, fun u hu => ?_⟩
        rcases hb u hu with h | h
        · rcases mem_keysOf_addHit h with h | h
          · exact Or.inl h
          · exact Or.inr (h ▸ List.mem_cons_self _ _)
        · exact Or.inr (List.mem_cons_of_mem _ h)
      · simp only [scanTerms, List.foldl_cons, if_neg hs] at *
        obtain ⟨ha, hb⟩ := ih idx hnd
        refine ⟨ha, fun u hu => ?_⟩
        rcases hb u hu with h | h
        · exact Or.inl h
        · exact Or.inr (List.mem_cons_of_mem _ h)
  · right; exact hnd

theorem keysOf_scanFiles (root : Dir) :
    (keysOf (scanFiles root)).Nodup ∧
      ∀ u ∈ keysOf (scanFiles root), u ∈ EXPLICIT_TERMS := by
  rw [scanFiles]
  have main : ∀ (items : List Item) (idx : Index), (keysOf idx).Nodup →
      (keysOf (items.foldl scanFile idx)).Nodup ∧
        ∀ u ∈ keysOf (items.foldl scanFile idx),
          u ∈ keysOf idx ∨ u ∈ EXPLICIT_TERMS := by
    intro items
    induction items with
    | nil => exact fun idx h => ⟨h, fun u hu => Or.inl hu⟩
    | cons it items ih =>
      intro idx hnd
      rw [List.foldl_cons]
      by_cases hk : fileKept it.name
      · rw [scanFile, if_pos hk]
        rcases keysOf_scanTerms (getTitle it.content it.name)
            (joinPath it.dirs it.name) it.content idx EXPLICIT_TERMS with ⟨h1, h2⟩ | h
        · obtain ⟨ha, hb⟩ := ih _ h1
          refine ⟨ha, fun u hu => ?_⟩
          rcases hb u hu with h | h
          · rcases h2 u h with h | h
            · exact Or.inl h
            · exact Or.inr h
          · exact Or.inr h
        · exact absurd hnd h
      · rw [scanFile, if_neg hk]
        exact ih idx hnd
  obtain ⟨ha, hb⟩ := main (walkDir [] root) [] (by simp [keysOf])
  refine ⟨ha, fun u hu => ?_⟩
  rcases hb u hu with h | h
  · simp [keysOf] at h
  · exact h

/-! ### Lemmas about title extraction -/

theorem getTitleLines_eq_find (dft : Text) (ls : List Text) :
    getTitleLines dft ls = ((ls.find? lineIsH1).map titleOfLine).getD dft := by
  induction ls with
  | nil => rfl
  | cons l ls ih =>
    by_cases h : lineIsH1 l
    · simp [getTitleLines, List.find?_cons, h]
    · simp [getTitleLines, List.find?_cons, h, ih]

/-! ### Lemmas about title deduplication -/

theorem lookupPath_updateAssoc_self (k v : Text) (l : List Hit) :
    lookupPath k (updateAssoc k v l) = some v := by
  induction l with
  | nil => simp [updateAssoc, lookupPath]
  | cons p rest ih =>
    obtain ⟨u, w⟩ := p
    by_cases h : u = k
    · subst h; simp [updateAssoc, lookupPath]
    · simp [updateAssoc, lookupPath, h, ih]

theorem lookupPath_updateAssoc_ne (t k v : Text) (h : k ≠ t) (l : List Hit) :
    lookupPath t (updateAssoc k v l) = lookupPath t l := by
  induction l with
  | nil => simp [updateAssoc, lookupPath, h]
  | cons p rest ih =>
    obtain ⟨u, w⟩ := p
    by_cases hu : u = k
    · subst hu; simp [updateAssoc, lookupPath, h]
    · by_cases hut : u = t <;>
        simp [updateAssoc, lookupPath, hu, hut, Ne.symm h, ih]

theorem lookupPath_append (t : Text) (l1 l2 : List Hit) :
    lookupPath t (l1 ++ l2) = altO (lookupPath t l1) (lookupPath t l2) := by
  induction l1 with
  | nil => simp [lookupPath, altO]
  | cons p rest ih =>
    obtain ⟨u, w⟩ := p
    by_cases h : u = t <;> simp [lookupPath, h, ih, altO]

theorem altO_none (a : Option Text) : altO a none = a := by
  cases a <;> rfl

theorem lastPathFor_cons (t : Text) (p : Hit) (links : List Hit) :
    lastPathFor t (p :: links) =
      altO (lastPathFor t links) (if p.1 = t then some p.2 else none) := by
  obtain ⟨u, v⟩ := p
  simp only [lastPathFor, List.reverse_cons, lookupPath_append]
  by_cases h : u = t <;> simp [lookupPath, h]

theorem lookupPath_dedup_foldl (links : List Hit) (acc : List Hit) (t : Text) :
    lookupPath t (links.foldl (fun a h => updateAssoc h.1 h.2 a) acc) =
      altO (lastPathFor t links) (lookupPath t acc) := by
  induction links generalizing acc with
  | nil => simp [lastPathFor, lookupPath, altO]
  | cons p links ih =>
    obtain ⟨u, v⟩ := p
    rw [List.foldl_cons, ih, lastPathFor_cons]
    by_cases h : u = t
    · subst h
      simp [lookupPath_updateAssoc_self]
      cases lastPathFor u links <;> simp [altO]
    · rw [lookupPath_updateAssoc_ne t u v h]
      simp only [h, if_neg]
      cases lastPathFor t links <;> simp [altO]

/-- The value a rendered link takes for a title is the path of the last
recorded pair with that title. -/
theorem lookupPath_dedupLinks (links : List Hit) (t : Text) :
    lookupPath t (dedupLinks links) = lastPathFor t links := by
  rw [dedupLinks, lookupPath_dedup_foldl]
  simp [lookupPath, altO_none]

theorem keys_updateAssoc (k v : Text) (l : List Hit) :
    (updateAssoc k v l).map Prod.fst =
      if k ∈ l.map Prod.fst then l.map Prod.fst else l.map Prod.fst ++ [k] := by
  induction l with
  | nil => simp [updateAssoc]
  | cons p rest ih =>
    obtain ⟨u, w⟩ := p
    by_cases h : u = k
    · subst h; simp [updateAssoc]
    · by_cases hm : k ∈ rest.map Prod.fst <;>
        simp [updateAssoc, h, Ne.symm h, hm, ih]

theorem dedupLinks_foldl_keys (links : List Hit) (acc : List Hit)
    (hnd : (acc.map Prod.fst).Nodup) :
    ((links.foldl (fun a h => updateAssoc h.1 h.2 a) acc).map Prod.fst).Nodup ∧
      ∀ t, t ∈ (links.foldl (fun a h => updateAssoc h.1 h.2 a) acc).map Prod.fst ↔
        t ∈ acc.map Prod.fst ∨ t ∈ links.map Prod.fst := by
  induction links generalizing acc with
  | nil => exact ⟨hnd, fun t => by simp⟩
  | cons p links ih =>
    obtain ⟨u, v⟩ := p
    rw [List.foldl_cons]
    have hnd2 : ((updateAssoc u v acc).map Prod.fst).Nodup := by
      rw [keys_updateAssoc]
      by_cases hm : u ∈ acc.map Prod.fst
      · simpa [hm] using hnd
      · simp only [hm, if_false]
        exact nodup_snoc hnd hm
    obtain ⟨ha, hb⟩ := ih (updateAssoc u v acc) hnd2
    refine ⟨ha, fun t => ?_⟩
    rw [hb t, keys_updateAssoc]
    by_cases hm : u ∈ acc.map Prod.fst
    · simp only [hm, if_true, List.map_cons, List.mem_cons]
      constructor
      · rintro (h | h)
        · exact Or.inl h
        · exact Or.inr (Or.inr h)
      · rintro (h | h | h)
        · exact Or.inl h
        · rw [h]; exact Or.inl hm
        · exact Or.inr h
    · simp only [hm, if_false, List.mem_append, List.mem_singleton,
        List.map_cons, List.mem_cons]
      tauto

theorem dedupLinks_keys (links : List Hit) :
    ((dedupLinks links).map Prod.fst).Nodup ∧
      ∀ t, t ∈ (dedupLinks links).map Prod.fst ↔ t ∈ links.map Prod.fst := by
  obtain ⟨ha, hb⟩ := dedupLinks_foldl_keys links [] (by simp)
  exact ⟨ha, fun t => by simpa using hb t⟩

/-! ### Lemmas about the lexicographic sort -/

theorem lexLt_irrefl (x : Text) : lexLt x x = false := by
  induction x with
  | nil => rfl
  | cons a xs ih => simp [lexLt, ih]

theorem lexLt_trans {x y z : Text} (h1 : lexLt x y = true) (h2 : lexLt y z = true) :
    lexLt x z = true := by
  induction x generalizing y z with
  | nil =>
    cases y with
    | nil => simp [lexLt] at h1
    | cons b ys =>
      cases z with
      | nil => simp [lexLt] at h2
      | cons c zs => simp [lexLt]
  | cons a xs ih =>
    cases y with
    | nil => simp [lexLt] at h1
    | cons b ys =>
      cases z with
      | nil => simp [lexLt] at h2
      | cons c zs =>
        simp only [lexLt, Bool.or_eq_true, Bool.and_eq_true, decide_eq_true_eq,
          beq_iff_eq] at h1 h2 ⊢
        rcases h1 with h1 | ⟨h1e, h1t⟩
        · rcases h2 with h2 | ⟨h2e, h2t⟩
          · exact Or.inl (Nat.lt_trans h1 h2)
          · exact Or.inl (h2e ▸ h1)
        · rcases h2 with h2 | ⟨h2e, h2t⟩
          · exact Or.inl (h1e ▸ h2)
          · exact Or.inr ⟨h1e.trans h2e, ih h1t h2t⟩

theorem lexLt_asymm {x y : Text} (h : lexLt x y = true) : lexLt y x = false := by
  by_contra hc
  rw [Bool.not_eq_false] at hc
  have := lexLt_trans h hc
  rw [lexLt_irrefl] at this
  cases this

theorem lexLt_connex {x y : Text} (h1 : lexLt x y = false) (h2 : lexLt y x = false) :
    x = y := by
  induction x generalizing y with
  | nil =>
    cases y with
    | nil => rfl
    | cons b ys => simp [lexLt] at h1
  | cons a xs ih =>
    cases y with
    | nil => simp [lexLt] at h2
    | cons b ys =>
      simp only [lexLt, Bool.or_eq_false_iff, Bool.and_eq_false_iff,
        decide_eq_false_iff_not, Nat.not_lt, beq_eq_false_iff_ne, ne_eq] at h1 h2
      obtain ⟨hab, h1r⟩ := h1
      obtain ⟨hba, h2r⟩ := h2
      have hab2 : a = b := Nat.le_antisymm hba hab
      subst hab2
      rcases h1r with h | h1r
      · exact absurd rfl h
      · rcases h2r with h | h2r
        · exact absurd rfl h
        · rw [ih h1r h2r]

/-- The order relation of the sort: key of `a` not greater than key of
`b`. -/
def keyLe (a b : Text) : Prop := lexLt (lowerL b) (lowerL a) = false

theorem keyLe_trans {a b c : Text} (h1 : keyLe a b) (h2 : keyLe b c) : keyLe a c := by
  rw [keyLe] at *
  by_contra hcon
  rw [Bool.not_eq_false] at hcon
  rcases Bool.eq_false_or_eq_true (lexLt (lowerL b) (lowerL c)) with hbc | hbc
  · have := lexLt_trans hbc hcon
    rw [this] at h1
    cases h1
  · have he := lexLt_connex hbc h2
    rw [← he] at hcon
    rw [hcon] at h1
    cases h1

theorem insertSorted_perm (x : Text) (l : List Text) : (insertSorted x l).Perm (x :: l) := by
  induction l with
  | nil => exact List.Perm.refl _
  | cons y ys ih =>
    by_cases h : lexLt (lowerL y) (lowerL x) = true
    · simp only [insertSorted, h, if_true]
      exact (ih.cons y).trans (List.Perm.swap x y ys)
    · rw [insertSorted, if_neg h]

theorem sortTerms_perm (l : List Text) : (sortTerms l).Perm l := by
  induction l with
  | nil => exact List.Perm.refl _
  | cons x l ih =>
    have : sortTerms (x :: l) = insertSorted x (sortTerms l) := rfl
    rw [this]
    exact (insertSorted_perm x (sortTerms l)).trans (ih.cons x)

theorem insertSorted_pairwise (x : Text) (l : List Text)
    (hl : l.Pairwise keyLe) : (insertSorted x l).Pairwise keyLe := by
  induction l with
  | nil => simp [insertSorted]
  | cons y ys ih =>
    rw [List.pairwise_cons] at hl
    obtain ⟨hy, hys⟩ := hl
    by_cases h : lexLt (lowerL y) (lowerL x) = true
    · simp only [insertSorted, h, if_true]
      rw [List.pairwise_cons]
      refine ⟨fun z hz => ?_, ih hys⟩
      rcases List.mem_cons.mp ((insertSorted_perm x ys).mem_iff.mp hz) with hzx | hzys
      · rw [hzx, keyLe]
        exact lexLt_asymm h
      · exact hy z hzys
    · rw [insertSorted, if_neg h]
      rw [Bool.not_eq_true] at h
      rw [List.pairwise_cons]
      refine ⟨fun z hz => ?_, by rw [List.pairwise_cons]; exact ⟨hy, hys⟩⟩
      rcases List.mem_cons.mp hz with hzy | hzys
      · rw [hzy, keyLe]
        exact h
      · exact keyLe_trans (a := x) (b := y) h (hy z hzys)

theorem sortTerms_pairwise (l : List Text) : (sortTerms l).Pairwise keyLe := by
  induction l with
  | nil => simp [sortTerms]
  | cons x l ih => exact insertSorted_pairwise x (sortTerms l) ih

/-! ### Lemmas about the rendered document structure -/

theorem renderBody_eq_flatten (idx : Index) (ts : List Text) (cur : Text) :
    renderBody idx ts cur = flattenSegs idx (renderSeg ts cur) := by
  induction ts generalizing cur with
  | nil => rfl
  | cons t ts ih =>
    by_cases h : letterOf t ≠ cur <;>
      simp [renderBody, renderSeg, flattenSegs, h, ih]

theorem renderSeg_eq_zip (ts : List Text) (cur : Text) :
    renderSeg ts cur =
      (ts.zip (cur :: ts.map letterOf)).map
        (fun p => ((if letterOf p.1 ≠ p.2 then some (hdrText (letterOf p.1)) else none), p.1)) := by
  induction ts generalizing cur with
  | nil => rfl
  | cons t ts ih => simp only [renderSeg, List.map_cons, List.zip_cons_cons, ih]

theorem emittedLetters_eq_filterMap (ts : List Text) (cur : Text) :
    (renderSeg ts cur).filterMap Prod.fst = (emittedLetters ts cur).map hdrText := by
  induction ts generalizing cur with
  | nil => rfl
  | cons t ts ih =>
    by_cases h : letterOf t ≠ cur <;>
      simp [renderSeg, emittedLetters, List.filterMap_cons, h, ih]

/-- The section letter code of a term. -/
def letterCode (t : Text) : Nat := pyUpperC (t.headD 0)

theorem letterOf_eq (t : Text) : letterOf t = [letterCode t] := rfl

theorem emittedLetters_cons_ne (t : Text) (ts : List Text) (cur : Text)
    (h : letterOf t ≠ cur) :
    emittedLetters (t :: ts) cur = letterOf t :: emittedLetters ts (letterOf t) := by
  simp [emittedLetters, h]

theorem emittedLetters_cons_eq (t : Text) (ts : List Text) (cur : Text)
    (h : letterOf t = cur) :
    emittedLetters (t :: ts) cur = emittedLetters ts (letterOf t) := by
  simp [emittedLetters, h]

theorem emittedLetters_mem {ts : List Text} {cur : Text} {l : Text}
    (h : l ∈ emittedLetters ts cur) : ∃ t ∈ ts, l = letterOf t := by
  induction ts generalizing cur with
  | nil => cases h
  | cons t ts ih =>
    by_cases hc : letterOf t = cur
    · rw [emittedLetters_cons_eq t ts cur hc] at h
      obtain ⟨u, hu, he⟩ := ih h
      exact ⟨u, List.mem_cons_of_mem _ hu, he⟩
    · rw [emittedLetters_cons_ne t ts cur hc] at h
      rcases List.mem_cons.mp h with h | h
      · exact ⟨t, List.mem_cons_self _ _, h⟩
      · obtain ⟨u, hu, he⟩ := ih h
        exact ⟨u, List.mem_cons_of_mem _ hu, he⟩

theorem emittedLetters_strict (ts : List Text) (c : Nat)
    (hp : ts.Pairwise (fun a b => letterCode a ≤ letterCode b))
    (hge : ∀ t ∈ ts, c ≤ letterCode t) :
    (emittedLetters ts [c]).Pairwise (fun l1 l2 => l1.headD 0 < l2.headD 0) ∧
      ∀ l ∈ emittedLetters ts [c], c < l.headD 0 := by
  induction ts generalizing c with
  | nil => exact ⟨List.Pairwise.nil, fun l hl => absurd hl (List.not_mem_nil l)⟩
  | cons t ts ih =>
    rw [List.pairwise_cons] at hp
    obtain ⟨hpt, hpts⟩ := hp
    by_cases he : letterCode t = c
    · have hcur : letterOf t = [c] := by rw [letterOf_eq, he]
      rw [emittedLetters_cons_eq t ts [c] hcur, letterOf_eq, he]
      exact he ▸ ih (letterCode t) hpts hpt
    · have hcur : letterOf t ≠ [c] := by
        rw [letterOf_eq]
        intro hx
        exact he (congrArg (fun l => l.headD 0) hx)
      rw [emittedLetters_cons_ne t ts [c] hcur, letterOf_eq]
      have hlt : c < letterCode t :=
        Nat.lt_of_le_of_ne (hge t (List.mem_cons_self _ _)) (Ne.symm he)
      obtain ⟨ha, hb⟩ := ih (letterCode t) hpts hpt
      refine ⟨List.pairwise_cons.mpr ⟨fun l hl => ?_, ha⟩, fun l hl => ?_⟩
      · simpa using hb l hl
      · rcases List.mem_cons.mp hl with h | h
        · rw [h]; simpa using hlt
        · exact Nat.lt_trans hlt (hb l h)

theorem emittedLetters_strict_start (ts : List Text)
    (hp : ts.Pairwise (fun a b => letterCode a ≤ letterCode b)) :
    (emittedLetters ts []).Pairwise (fun l1 l2 => l1.headD 0 < l2.headD 0) := by
  cases ts with
  | nil => exact List.Pairwise.nil
  | cons t ts =>
    rw [List.pairwise_cons] at hp
    obtain ⟨hpt, hpts⟩ := hp
    have hne : letterOf t ≠ [] := by rw [letterOf_eq]; exact List.cons_ne_nil _ _
    rw [emittedLetters_cons_ne t ts [] hne, letterOf_eq]
    obtain ⟨ha, hb⟩ := emittedLetters_strict ts (letterCode t) hpts hpt
    refine List.pairwise_cons.mpr ⟨fun l hl => ?_, ha⟩
    simpa using hb l hl

/-! ### Decidable facts about the fixed vocabulary -/

theorem vocab_lower_inj : ∀ a ∈ EXPLICIT_TERMS, ∀ b ∈ EXPLICIT_TERMS,
    a ≠ b → lowerL a ≠ lowerL b := by decide

theorem vocab_letter_mono : ∀ a ∈ EXPLICIT_TERMS, ∀ b ∈ EXPLICIT_TERMS,
    lexLt (lowerL a) (lowerL b) = true → letterCode a ≤ letterCode b := by decide

theorem vocab_letter_range : ∀ a ∈ EXPLICIT_TERMS,
    65 ≤ letterCode a ∧ letterCode a ≤ 90 := by decide

theorem strict_of_keyLe_ne {a b : Text} (h1 : keyLe a b) (h2 : lowerL a ≠ lowerL b) :
    lexLt (lowerL a) (lowerL b) = true := by
  by_contra hc
  rw [Bool.not_eq_true] at hc
  exact h2 (lexLt_connex hc h1)

/-- The sorted key list of a scan is strictly increasing under
case-insensitive comparison (the vocabulary has no two terms equal up to
case). -/
theorem sortTerms_keys_strict (root : Dir) :
    (sortTerms (keysOf (scanFiles root))).Pairwise
      (fun a b => lexLt (lowerL a) (lowerL b) = true) := by
  obtain ⟨hnd, hsub⟩ := keysOf_scanFiles root
  have hperm := sortTerms_perm (keysOf (scanFiles root))
  have hnd2 : (sortTerms (keysOf (scanFiles root))).Nodup := hperm.nodup_iff.mpr hnd
  have hmem : ∀ t ∈ sortTerms (keysOf (scanFiles root)), t ∈ EXPLICIT_TERMS :=
    fun t ht => hsub t (hperm.mem_iff.mp ht)
  have hpair := sortTerms_pairwise (keysOf (scanFiles root))
  have hcomb := hpair.and hnd2
  refine List.Pairwise.imp_of_mem ?_ hcomb
  intro a b ha hb hab
  exact strict_of_keyLe_ne hab.1 (vocab_lower_inj a (hmem a ha) b (hmem b hb) hab.2)

/-- The sorted key list of a scan has nondecreasing section letter
codes. -/
theorem sortTerms_keys_letter_mono (root : Dir) :
    (sortTerms (keysOf (scanFiles root))).Pairwise
      (fun a b => letterCode a ≤ letterCode b) := by
  obtain ⟨hnd, hsub⟩ := keysOf_scanFiles root
  have hperm := sortTerms_perm (keysOf (scanFiles root))
  have hmem : ∀ t ∈ sortTerms (keysOf (scanFiles root)), t ∈ EXPLICIT_TERMS :=
    fun t ht => hsub t (hperm.mem_iff.mp ht)
  refine List.Pairwise.imp_of_mem ?_ (sortTerms_keys_strict root)
  intro a b ha hb hab
  exact vocab_letter_mono a (hmem a ha) b (hmem b hb) hab

/-! ### Lemmas about the directory walk -/

mutual

theorem walkDir_not_ignored : ∀ (pre : List Text) (d : Dir),
    (∀ x ∈ pre, x ∉ IGNORE_DIRS) →
      ∀ it ∈ walkDir pre d, ∀ x ∈ it.dirs, x ∉ IGNORE_DIRS
  | pre, .node files subs, hpre, it, hit => by
    rw [walkDir] at hit
    rcases List.mem_append.mp hit with h | h
    · obtain ⟨f, _hf, he⟩ := List.mem_map.mp h
      intro x hx
      rw [← he] at hx
      exact hpre x hx
    · exact walkSubs_not_ignored pre subs hpre it h

theorem walkSubs_not_ignored : ∀ (pre : List Text) (s : SubDirs),
    (∀ x ∈ pre, x ∉ IGNORE_DIRS) →
      ∀ it ∈ walkSubs pre s, ∀ x ∈ it.dirs, x ∉ IGNORE_DIRS
  | pre, .nil, _hpre, it, hit => by cases hit
  | pre, .cons n d rest, hpre, it, hit => by
    rw [walkSubs] at hit
    rcases List.mem_append.mp hit with h | h
    · by_cases hn : n ∈ IGNORE_DIRS
      · rw [if_pos hn] at h; cases h
      · rw [if_neg hn] at h
        refine walkDir_not_ignored (pre ++ [n]) d ?_ it h
        intro x hx
        rcases List.mem_append.mp hx with hx | hx
        · exact hpre x hx
        · rw [List.mem_singleton] at hx
          rw [hx]
          exact hn
    · exact walkSubs_not_ignored pre rest hpre it h

end

/-! ### Lemmas about terms ending in a non-word character -/

theorem pyLowerC_eq_42 {c : Nat} (h : pyLowerC c = 42) : c = 42 := by
  rw [pyLowerC] at h
  split at h <;> omega

theorem matchAt_star {content : Text} {i : Nat}
    (h : matchAt (str "A*") content i = true) : wAt content (i + 2) = true := by
  have hlen : (str "A*").length = 2 := rfl
  rw [matchAt, hlen] at h
  simp only [Bool.and_eq_true] at h
  obtain ⟨⟨hci, _hbi⟩, hbe⟩ := h
  rw [ciEq, hlen] at hci
  simp only [Bool.and_eq_true, beq_iff_eq] at hci
  obtain ⟨hlen2, hall⟩ := hci
  obtain ⟨c0, c1, hsl⟩ := List.length_eq_two.mp hlen2.symm
  rw [hsl] at hall
  have hz : (str "A*").zip [c0, c1] = [(65, c0), (42, c1)] := rfl
  rw [hz, List.all_cons, List.all_cons, List.all_nil] at hall
  simp only [Bool.and_eq_true, beq_iff_eq] at hall
  obtain ⟨_h0, h1, _⟩ := hall
  have h42 : pyLowerC 42 = 42 := rfl
  rw [h42] at h1
  have hc1 : c1 = 42 := pyLowerC_eq_42 h1.symm
  have hget : content.get? (i + 1) = some c1 := by
    have hg : ((content.drop i).take 2).get? 1 = some c1 := by rw [hsl]; rfl
    rw [List.get?_take (by omega)] at hg
    rw [List.get?_drop] at hg
    exact hg
  have hw1 : wAt content (i + 1) = false := by
    rw [wAt, hget, hc1]
    rfl
  rw [boundaryAt] at hbe
  rw [if_neg (by omega : ¬ (i + 2 = 0))] at hbe
  have h21 : i + 2 - 1 = i + 1 := by omega
  rw [h21, hw1] at hbe
  simpa using hbe

theorem lowerL_hdrText {z : Nat} (h1 : 65 ≤ z) (h2 : z ≤ 90) :
    lowerL (hdrText [z]) = [10, 35, 35, 32, z + 32, 10, 10] := by
  have ha : str "\n## " = [10, 35, 35, 32] := rfl
  have hb : str "\n\n" = [10, 10] := rfl
  rw [hdrText, ha, hb, lowerL, List.map_append, List.map_append]
  have hc : List.map pyLowerC [10, 35, 35, 32] = [10, 35, 35, 32] := by decide
  have hd : List.map pyLowerC [10, 10] = [10, 10] := by decide
  have hz : List.map pyLowerC [z] = [z + 32] := by
    rw [List.map_cons, List.map_nil, pyLowerC, if_pos ⟨h1, h2⟩]
  rw [hc, hd, hz]
  rfl

theorem hdr_lt {x y : Nat} (hx1 : 65 ≤ x) (hx2 : x ≤ 90) (hy1 : 65 ≤ y) (hy2 : y ≤ 90)
    (hxy : x < y) : lexLt (lowerL (hdrText [x])) (lowerL (hdrText [y])) = true := by
  rw [lowerL_hdrText hx1 hx2, lowerL_hdrText hy1 hy2]
  simp [lexLt]
  omega

/-- The section headers of the generated document appear in strictly
increasing case-insensitive order. -/
theorem headers_sorted (root : Dir) :
    ((renderSeg (sortTerms (keysOf (scanFiles root))) []).filterMap Prod.fst).Pairwise
      (fun h1 h2 => lexLt (lowerL h1) (lowerL h2) = true) := by
  rw [emittedLetters_eq_filterMap, List.pairwise_map]
  have hmono := sortTerms_keys_letter_mono root
  have hstrict := emittedLetters_strict_start _ hmono
  obtain ⟨_hnd, hsub⟩ := keysOf_scanFiles root
  have hperm := sortTerms_perm (keysOf (scanFiles root))
  have hmem : ∀ t ∈ sortTerms (keysOf (scanFiles root)), t ∈ EXPLICIT_TERMS :=
    fun t ht => hsub t (hperm.mem_iff.mp ht)
  refine List.Pairwise.imp_of_mem ?_ hstrict
  intro l1 l2 h1 h2 hlt
  obtain ⟨t1, ht1, he1⟩ := emittedLetters_mem h1
  obtain ⟨t2, ht2, he2⟩ := emittedLetters_mem h2
  obtain ⟨r1a, r1b⟩ := vocab_letter_range t1 (hmem t1 ht1)
  obtain ⟨r2a, r2b⟩ := vocab_letter_range t2 (hmem t2 ht2)
  rw [he1, letterOf_eq] at hlt ⊢
  rw [he2, letterOf_eq] at hlt ⊢
  simp only [List.headD_cons] at hlt
  exact hdr_lt r1a r1b r2a r2b hlt

/-! ### The claims -/

/-- Claim C1: running the index generator on a content root containing a
single markdown file whose first level-one heading is `# Chapter One` and
whose body mentions `uses an Octree and BCC lattice` produces an index
document with a `## B` section holding a `BCC` term line and a `## O`
section holding an `Octree` term line, each rendering a markdown link
whose display text is the title `Chapter One`. -/
theorem c1_end_to_end :
    containsSub (str "\n## B\n") (runIndexGenerator c1Root) = true ∧
    containsSub (str "- **BCC**: [Chapter One](../chapter1.md)")
      (runIndexGenerator c1Root) = true ∧
    containsSub (str "\n## O\n") (runIndexGenerator c1Root) = true ∧
    containsSub (str "- **Octree**: [Chapter One](../chapter1.md)")
      (runIndexGenerator c1Root) = true := by
  exact ⟨by decide, by decide, by decide, by decide⟩

/-- Claim C2: for every scanned file and vocabulary term, an occurrence is
recorded for the (term, file) pair exactly when the file's text contains
the term as a whole word between word boundaries, case-insensitively: the
hits stored for a term are precisely the kept walked files whose content
matches the word-boundary regex.  In particular a file containing `BCCX`
records no hit for `BCC`, while a lowercase whole-word `bcc` does. -/
theorem c2_word_boundary_matching :
    (∀ (root : Dir) (t : Text), t ∈ EXPLICIT_TERMS →
      lookupHits t (scanFiles root) =
        ((walkDir [] root).filter
            (fun it => fileKept it.name && termSearch t it.content)).map mkHit) ∧
    lookupHits (str "BCC") (scanFiles bccxRoot) = [] ∧
    lookupHits (str "BCC") (scanFiles bccLowerRoot) = [(str "L", str "l.md")] := by
  refine ⟨fun root t ht => lookupHits_scanFiles root t ht, by decide, by decide⟩

/-- Witness for C2 at a concrete root and term. -/
theorem c2_witness :
    lookupHits (str "Octree") (scanFiles c1Root) =
        ((walkDir [] c1Root).filter
            (fun it => fileKept it.name && termSearch (str "Octree") it.content)).map mkHit ∧
    lookupHits (str "Octree") (scanFiles c1Root) =
      [(str "Chapter One", str "chapter1.md")] :=
  ⟨c2_word_boundary_matching.1 c1Root (str "Octree") (by decide), by decide⟩

/-- Claim C3: any exception raised by one of the three plotting calls is
caught by the single guard in `main`: its message is printed with the
installation hint, the remaining figures are not generated, nothing
escapes `main`, and no explicit non-zero exit status is set. -/
theorem c3_catch_all (w : FigWorld) :
    (figMain w).uncaught = none ∧ (figMain w).exitCode = 0 ∧
    (∀ e, w.r1 = some e →
      (figMain w).files = [] ∧
      (figMain w).printed = [genLine, errLine e, hintLine]) ∧
    (∀ e, w.r1 = none → w.r2 = some e →
      (figMain w).files = [outJoin "benchmark_neighbor_lookup.png"] ∧
      (figMain w).printed =
        [genLine, str "Generated benchmark_neighbor_lookup.png", errLine e, hintLine]) ∧
    (∀ e, w.r1 = none → w.r2 = none → w.r3 = some e →
      (figMain w).files =
        [outJoin "benchmark_neighbor_lookup.png", outJoin "benchmark_memory_efficiency.png"] ∧
      (figMain w).printed =
        [genLine, str "Generated benchmark_neighbor_lookup.png",
          str "Generated benchmark_memory_efficiency.png", errLine e, hintLine]) := by
  obtain ⟨de, r1, r2, r3⟩ := w
  cases r1 <;> cases r2 <;> cases r3 <;>
    simp [figMain]

/-- Witness for C3: a world whose first plotting call raises. -/
theorem c3_witness :
    (figMain failWorld).uncaught = none ∧ (figMain failWorld).files = [] :=
  ⟨(c3_catch_all failWorld).1,
    ((c3_catch_all failWorld).2.2.1 (str "boom") rfl).1⟩

/-- Claim C4: the chapter title of a scanned file is the first line
beginning a level-one heading (`# `), stripped; when no such line exists
the title falls back to the file's base name. -/
theorem c4_chapter_title (content name : Text) :
    ((splitLines content).find? lineIsH1 = none → getTitle content name = name) ∧
    (∀ l, (splitLines content).find? lineIsH1 = some l →
      getTitle content name = titleOfLine l) := by
  constructor
  · intro h
    rw [getTitle, getTitleLines_eq_find, h]
    rfl
  · intro l h
    rw [getTitle, getTitleLines_eq_find, h]
    rfl

/-- Witness for C4 at a concrete content, both branches grounded. -/
theorem c4_witness :
    getTitle (str "intro text\n# Chapter One\nbody\n") (str "ch.md") = str "Chapter One" := by
  have h := (c4_chapter_title (str "intro text\n# Chapter One\nbody\n") (str "ch.md")).2
    (str "# Chapter One\n") (by decide)
  rw [h]
  decide

/-- Claim C5: on every term line each distinct chapter title is rendered
at most once: the deduplicated link list has pairwise distinct titles and
keeps exactly the titles that were recorded; concretely, a term recorded
under two files with equal titles renders a single link. -/
theorem c5_dedup_by_title :
    (∀ links : List Hit, ((dedupLinks links).map Prod.fst).Nodup ∧
      ∀ t, t ∈ (dedupLinks links).map Prod.fst ↔ t ∈ links.map Prod.fst) ∧
    lookupHits (str "BCC") (scanFiles dupTitleRoot) =
      [(str "Chapter One", str "a.md"), (str "Chapter One", str "b.md")] ∧
    countSub (str "[Chapter One]") (runIndexGenerator dupTitleRoot) = 1 := by
  refine ⟨fun links => dedupLinks_keys links, by decide, by decide⟩

/-- Claim C6: in the generated document the term lines appear in strictly
increasing case-insensitive order, the body is exactly the concatenation
of the per-term segments (so each emitted header stands immediately
before the first term line of its letter group), a header is emitted for
a term exactly when its letter differs from the previous term's letter,
and the emitted `## letter` headers are themselves in increasing
case-insensitive order. -/
theorem c6_sorted_rendering (root : Dir) :
    (sortTerms (keysOf (scanFiles root))).Pairwise
        (fun a b => lexLt (lowerL a) (lowerL b) = true) ∧
    renderBody (scanFiles root) (sortTerms (keysOf (scanFiles root))) [] =
      flattenSegs (scanFiles root) (renderSeg (sortTerms (keysOf (scanFiles root))) []) ∧
    renderSeg (sortTerms (keysOf (scanFiles root))) [] =
      ((sortTerms (keysOf (scanFiles root))).zip
          ([] :: (sortTerms (keysOf (scanFiles root))).map letterOf)).map
        (fun p =>
          ((if letterOf p.1 ≠ p.2 then some (hdrText (letterOf p.1)) else none), p.1)) ∧
    ((renderSeg (sortTerms (keysOf (scanFiles root))) []).filterMap Prod.fst).Pairwise
        (fun h1 h2 => lexLt (lowerL h1) (lowerL h2) = true) := by
  exact ⟨sortTerms_keys_strict root,
    renderBody_eq_flatten (scanFiles root) (sortTerms (keysOf (scanFiles root))) [],
    renderSeg_eq_zip (sortTerms (keysOf (scanFiles root))) [],
    headers_sorted root⟩

/-- Claim C7: files inside an ignored directory (pruned at any depth),
files with an excluded name and files not ending in `.md` are never
scanned nor linked: every recorded hit comes from a walked file whose
name ends in `.md`, is not excluded, and whose directory components avoid
the ignore list; a root holding only excluded material yields an empty
index. -/
theorem c7_exclusions :
    (∀ (root : Dir) (t : Text) (hit : Hit), hit ∈ lookupHits t (scanFiles root) →
      ∃ it, it ∈ walkDir [] root ∧ hit = mkHit it ∧
        (str ".md").isSuffixOf it.name = true ∧ it.name ∉ IGNORE_FILES ∧
        ∀ x ∈ it.dirs, x ∉ IGNORE_DIRS) ∧
    scanFiles excludedRoot = [] := by
  refine ⟨fun root t hit hmem => ?_, by decide⟩
  by_cases ht : t ∈ EXPLICIT_TERMS
  · rw [lookupHits_scanFiles root t ht] at hmem
    obtain ⟨it, hfil, he⟩ := List.mem_map.mp hmem
    obtain ⟨hwalk, hkeep⟩ := List.mem_filter.mp hfil
    rw [Bool.and_eq_true] at hkeep
    have hk := hkeep.1
    rw [fileKept, Bool.and_eq_true] at hk
    obtain ⟨hmd, hnf⟩ := hk
    refine ⟨it, hwalk, he.symm, hmd, ?_, ?_⟩
    · intro hcon
      rw [Bool.not_eq_true', decide_eq_false_iff_not] at hnf
      exact hnf hcon
    · exact walkDir_not_ignored [] root (fun x hx => absurd hx (List.not_mem_nil x)) it hwalk
  · have : t ∉ keysOf (scanFiles root) := fun hk => ht ((keysOf_scanFiles root).2 t hk)
    rw [lookupHits_eq_nil_of_not_mem t _ this] at hmem
    cases hmem

/-- Witness for C7: a hit of a concrete scan traced back to its walked
file. -/
theorem c7_witness :
    (∃ it, it ∈ walkDir [] bccLowerRoot ∧ (str "L", str "l.md") = mkHit it ∧
      (str ".md").isSuffixOf it.name = true ∧ it.name ∉ IGNORE_FILES ∧
      ∀ x ∈ it.dirs, x ∉ IGNORE_DIRS) ∧
    scanFiles excludedRoot = [] :=
  ⟨c7_exclusions.1 bccLowerRoot (str "BCC") (str "L", str "l.md") (by decide),
    c7_exclusions.2⟩

/-- Claim C8: the figure generator ensures the fixed output directory
`book/images` exists (creating it when missing), and a run in which no
plotting call raises writes exactly the three fixed-name image files. -/
theorem c8_fixed_outputs (w : FigWorld) :
    (figMain w).outDirExists = true ∧
    (figMain w).dirCreated = !w.dirExists ∧
    (w.r1 = none → w.r2 = none → w.r3 = none →
      (figMain w).files =
        [outJoin "benchmark_neighbor_lookup.png",
         outJoin "benchmark_memory_efficiency.png",
         outJoin "benchmark_isotropy.png"]) := by
  obtain ⟨de, r1, r2, r3⟩ := w
  cases r1 <;> cases r2 <;> cases r3 <;> simp [figMain]

/-- Witness for C8: a fresh world with three successful calls. -/
theorem c8_witness :
    (figMain okWorld).outDirExists = true ∧
    (figMain okWorld).files =
      [outJoin "benchmark_neighbor_lookup.png",
       outJoin "benchmark_memory_efficiency.png",
       outJoin "benchmark_isotropy.png"] :=
  ⟨(c8_fixed_outputs okWorld).1, (c8_fixed_outputs okWorld).2.2 rfl rfl rfl⟩

/-- Claim C9: the escaped term `A*` sits between `\b` anchors, so a match
can only end right before a word character; consequently a file whose
text reads `A* search` (asterisk followed by a space) records no hit for
the vocabulary term `A*`. -/
theorem c9_star_needs_word_after (content : Text) (i : Nat) :
    (matchAt (str "A*") content i = true → wAt content (i + 2) = true) ∧
    lookupHits (str "A*") (scanFiles aStarRoot) = [] ∧
    termSearch (str "A*") (str "A* search methods") = false := by
  exact ⟨fun h => matchAt_star h, by decide, by decide⟩

/-- Witness for C9: inside `A*b` the match at position 0 is indeed
followed by a word character. -/
theorem c9_witness : wAt (str "A*b") 2 = true :=
  (c9_star_needs_word_after (str "A*b") 0).1 (by decide)

/-- Claim C10: when several recorded pairs share a title, the link
rendered for that title carries the path of the last pair in walk order:
the deduplicated value of a title is the last recorded path, and on a
concrete root with the same title under `a/f.md` then `b/f.md`, the
rendered document links `b/f.md` and drops `a/f.md`. -/
theorem c10_last_path_wins :
    (∀ (links : List Hit) (t : Text),
      lookupPath t (dedupLinks links) = lastPathFor t links) ∧
    lookupHits (str "BCC") (scanFiles lastWinsRoot) =
      [(str "Chapter One", str "a/f.md"), (str "Chapter One", str "b/f.md")] ∧
    containsSub (str "[Chapter One](../b/f.md)") (runIndexGenerator lastWinsRoot) = true ∧
    containsSub (str "a/f.md") (runIndexGenerator lastWinsRoot) = false := by
  exact ⟨fun links t => lookupPath_dedupLinks links t, by decide, by decide, by decide⟩

end OctaIndex
